import Mathlib

/-!
Verification development for the `reconcile` file-list reconciliation library.

The Go sources are shallowly embedded here:
* `internal/identity/identity.go` — the pattern matchers `Soname`, `Script`,
  `Embedded`, `Suffix`, the span query `Spans` and the identity test `Equal`;
* the hashing layer (`Hash`, `HashAll`) with the 64-bit seeded hash modelled as
  an arbitrary function parameter `H : Bytes → Nat` masked to uint64 semantics;
* `pkg/files/diff.go` — the reconciler `diffP` with its sharded lookup table,
  claim bitset and per-worker buffers.  The concurrent phases are embedded as
  their deterministic sequentialisation: workers run one after the other in
  ascending worker id, which is one admissible schedule of the Go code and the
  one the per-worker merge order exposes.

Byte strings are `List Nat` with every element a byte value; Go's byte
arithmetic tests (`c-'0' < 10`, `(c|32)-'a' < 26`) are translated to the
equivalent range tests on byte values.
-/

namespace Reconcile

/-- Byte strings: a Go `[]byte` / `string` as its list of byte values. -/
abbrev Bytes := List Nat

/-- ASCII bytes of a (pure-ASCII) string literal, for concrete test inputs. -/
def bytes (s : String) : Bytes := s.data.map Char.toNat

/-- Go's `b - '0' < 10` on a byte: `b` is an ASCII digit. -/
def isDigit (b : Nat) : Bool := decide (48 ≤ b ∧ b ≤ 57)

/-- Go's `(c | 32) - 'a' < 26` on a byte: `c` is an ASCII letter. -/
def isAlpha (c : Nat) : Bool := decide (97 ≤ (c ||| 32) ∧ (c ||| 32) ≤ 122)

/-- The backwards scan of `Soname` (identity.go:61-65).  The argument is the
current loop index `i`; indices `0`, `1`, `2` are the `i ≥ 3` exit. -/
def sonameLoop (bs : Bytes) : Nat → Nat
  | 0 => 0
  | 1 => 0
  | 2 => 0
  | (i + 3) =>
    if bs.getD (i + 3) 0 = 46 ∧ isDigit (bs.getD (i + 4) 0) = true ∧
        bs.getD (i + 2) 0 = 111 ∧ bs.getD (i + 1) 0 = 115 ∧ bs.getD i 0 = 46 then
      i + 3
    else
      sonameLoop bs (i + 2)

/-- `Soname` (identity.go:56-68): position of the `.` starting the numeric
version of a `name.so.VERSION` pattern, `0` if absent. -/
def Soname (bs : Bytes) : Nat := sonameLoop bs (bs.length - 2)

/-- The scan for the last `.` in `Embedded` (identity.go:80-85); the loop
requires `i > 0`, so index `0` is never examined. -/
def lastDot (bs : Bytes) : Nat → Option Nat
  | 0 => none
  | (i + 1) => if bs.getD (i + 1) 0 = 46 then some (i + 1) else lastDot bs i

/-- The backwards digit-or-dot scan of `Embedded` (identity.go:92-98).  The
first argument is `i + 1` for Go's loop index `i` (so `0` encodes `i = -1`);
the second accumulates the dot count.  Returns the final `i + 1` and count. -/
def embLoop (bs : Bytes) : Nat → Nat → Nat × Nat
  | 0, dots => (0, dots)
  | (p + 1), dots =>
    if isDigit (bs.getD p 0) = true then embLoop bs p dots
    else if bs.getD p 0 = 46 then embLoop bs p (dots + 1)
    else (p + 1, dots)

/-- `Embedded` (identity.go:72-106): span of an embedded version
`prefix.V.V.V.ext`, or `(0, 0)`. -/
def Embedded (bs : Bytes) : Nat × Nat :=
  let length := bs.length
  if length < 9 then (0, 0)
  else
    match lastDot bs (length - 1) with
    | none => (0, 0)
    | some ext =>
      if ext < 6 ∨ ext = length - 1 then (0, 0)
      else
        let r := embLoop bs ext 0
        if 2 ≤ r.2 ∧ 1 ≤ r.1 ∧ bs.getD r.1 0 = 46 ∧ isDigit (bs.getD (r.1 + 1) 0) = true then
          (r.1, ext)
        else (0, 0)

/-- The required script suffixes, in the order identity.go:121-128 tries them. -/
def scriptSuffixes : List Bytes :=
  [bytes ".post-deinstall", bytes ".post-install", bytes ".post-upgrade",
   bytes ".pre-install", bytes ".pre-upgrade", bytes ".trigger"]

/-- The suffix-matching loop of `Script` (identity.go:130-137): the start of
the first matching suffix, `0` if none matches. -/
def scriptStart (bs : Bytes) : Nat :=
  match scriptSuffixes.find? (fun suf =>
      decide (suf.length < bs.length) && decide (bs.drop (bs.length - suf.length) = suf)) with
  | some suf => bs.length - suf.length
  | none => 0

/-- The backwards scan for the `.Q1` checksum marker (identity.go:145-150);
the loop requires `i ≥ 4`. -/
def checksumLoop (bs : Bytes) (length : Nat) : Nat → Option Nat
  | 0 => none
  | 1 => none
  | 2 => none
  | 3 => none
  | (i + 4) =>
    if bs.getD (i + 4) 0 = 46 ∧ i + 6 < length ∧ bs.getD (i + 5) 0 = 81 ∧
        bs.getD (i + 6) 0 = 49 then
      some (i + 4)
    else
      checksumLoop bs length (i + 3)

/-- The backwards scan for the `-VERSION` boundary (identity.go:156-160);
the loop requires `i ≥ 1`. -/
def dashLoop (bs : Bytes) (cs : Nat) : Nat → Option Nat
  | 0 => none
  | (i + 1) =>
    if bs.getD (i + 1) 0 = 45 ∧ i + 2 < cs ∧ isDigit (bs.getD (i + 2) 0) = true then
      some (i + 1)
    else
      dashLoop bs cs i

/-- `Script` (identity.go:115-163): `(pkgEnd, scriptStart)` of a
package-manager script artifact with checksum, or `(0, 0)`. -/
def Script (bs : Bytes) : Nat × Nat :=
  let length := bs.length
  if length < 20 then (0, 0)
  else
    let start := scriptStart bs
    if start = 0 then (0, 0)
    else
      match checksumLoop bs length (start - 2) with
      | none => (0, 0)
      | some checksumStart =>
        match dashLoop bs checksumStart (checksumStart - 1) with
        | none => (0, 0)
        | some i => (i, start)

/-- The trailing-digit consumption of `Suffix` (identity.go:172-174); argument
is `i + 1` for Go's loop index `i`, returns the final `i + 1`. -/
def suffixDigits (bs : Bytes) : Nat → Nat
  | 0 => 0
  | (p + 1) => if isDigit (bs.getD p 0) = true then suffixDigits bs p else p + 1

/-- The main backwards scan of `Suffix` (identity.go:182-195); argument is
`i + 1` for Go's loop index `i`. -/
def suffixLoop (bs : Bytes) (length : Nat) : Nat → Nat
  | 0 => 0
  | (p + 1) =>
    if bs.getD p 0 = 45 ∧ p + 1 < length ∧ isDigit (bs.getD (p + 1) 0) = true then p
    else if isDigit (bs.getD p 0) = true ∨ bs.getD p 0 = 46 ∨ bs.getD p 0 = 45 ∨
        bs.getD p 0 = 43 ∨ isAlpha (bs.getD p 0) = true then
      suffixLoop bs length p
    else 0

/-- `Suffix` (identity.go:166-198): position of the `-` starting a
`-VERSION` (optionally `-rN`-tailed) suffix, `0` if absent. -/
def Suffix (bs : Bytes) : Nat :=
  let length := bs.length
  if length = 0 then 0
  else
    let i := length - 1
    let p :=
      if 2 < i ∧ isDigit (bs.getD i 0) = true then
        let q := suffixDigits bs length
        if 1 < q ∧ bs.getD (q - 1) 0 = 114 ∧ bs.getD (q - 2) 0 = 45 then q - 2 else q
      else length
    suffixLoop bs length p

/-- `Spans` (identity.go:32-52): the identity of `bs` is `bs[0:j]` followed by
`bs[s:e]`; the matcher cascade is Soname → Script → Embedded → Suffix →
whole string. -/
def Spans (bs : Bytes) : Nat × Nat × Nat :=
  let length := bs.length
  if 0 < Soname bs then (Soname bs, 0, 0)
  else if 0 < (Script bs).1 then ((Script bs).1, (Script bs).2, length)
  else if 0 < (Embedded bs).1 then ((Embedded bs).1, (Embedded bs).2, length)
  else if 0 < Suffix bs then (Suffix bs, 0, 0)
  else (length, 0, 0)

/-- `Equal` (identity.go:13-26): two byte strings have the same identity. -/
def Equal (old cur : Bytes) : Bool :=
  let o := Spans old
  let c := Spans cur
  if o.1 ≠ c.1 ∨ o.2.2 - o.2.1 ≠ c.2.2 - c.2.1 then false
  else
    decide (old.take o.1 = cur.take c.1) &&
    decide ((old.take o.2.2).drop o.2.1 = (cur.take c.2.2).drop c.2.1)

/-! ## Hashing (Makefile-bundled identity hashing source: `Hash`, `HashAll`) -/

/-- The high bit reserved to distinguish exact keys: `1 << 63`. -/
def ExactFlag : Nat := 2 ^ 63

/-- Go's `x &^ ExactFlag` on a uint64: clear bit 63. -/
def maskLow : Nat := 2 ^ 63 - 1

/-- `Hash` (hash source 128-155): `(identity_hash, exact_hash)` of a byte
string.  The process-wide seeded `maphash.Bytes(seed, ·)` is modelled by the
arbitrary function parameter `H`; every produced hash is masked with
`&^ ExactFlag`, i.e. `&&& maskLow`. -/
def Hash (H : Bytes → Nat) (bs : Bytes) : Nat × Nat :=
  let length := bs.length
  let exact := H bs &&& maskLow
  if length = 0 then (exact, exact)
  else if 0 < Soname bs then (H (bs.take (Soname bs)) &&& maskLow, exact)
  else if 0 < (Script bs).1 then
    ((H (bs.take (Script bs).1) ^^^ H (bs.drop (Script bs).2)) &&& maskLow, exact)
  else if 0 < (Embedded bs).1 then
    ((H (bs.take (Embedded bs).1) ^^^ H (bs.drop (Embedded bs).2)) &&& maskLow, exact)
  else if 0 < Suffix bs then (H (bs.take (Suffix bs)) &&& maskLow, exact)
  else (exact, exact)

/-- The contiguous chunk assigned to each worker: Go's
`low := worker * chunk; if low >= bound { break }; high := min(low+chunk, bound)`
pattern.  Because `low` grows with the worker id, the `break` is a filter. -/
def workerRanges (workers chunk bound : Nat) : List (Nat × Nat) :=
  (List.range workers).filterMap fun w =>
    let low := w * chunk
    if low < bound then some (low, min (low + chunk) bound) else none

/-- The ascending indices `[lo, hi)` a worker iterates over. -/
def idxRange (lo hi : Nat) : List Nat := (List.range (hi - lo)).map (lo + ·)

/-- Go's `max(1, (n + workers - 1) / workers)` chunk size. -/
def chunkOf (n workers : Nat) : Nat := max 1 ((n + workers - 1) / workers)

/-- `HashAll` (hash source 95-124): fan out `Hash` over the chunked index
range.  Each worker fills the contiguous segment of the two output arrays its
chunk covers; concatenating the segments in worker order reconstructs the
arrays. -/
def HashAll (H : Bytes → Nat) (files : List Bytes) (workers : Nat) :
    List Nat × List Nat :=
  let length := files.length
  if length = 0 then ([], [])
  else
    let chunk := chunkOf length workers
    ((workerRanges workers chunk length).flatMap fun r =>
        (idxRange r.1 r.2).map fun i => (Hash H (files.getD i [])).1,
     (workerRanges workers chunk length).flatMap fun r =>
        (idxRange r.1 r.2).map fun i => (Hash H (files.getD i [])).2)

/-! ## The result container (Result source, unnamed part 001) -/

/-- Status ordinals (`Unchanged = 0, Updated = 1, Removed = 2, Added = 3`). -/
def Unchanged : Nat := 0

/-- Status ordinal 1. -/
def Updated : Nat := 1

/-- Status ordinal 2. -/
def Removed : Nat := 2

/-- Status ordinal 3. -/
def Added : Nat := 3

/-- The `0xFFFFFFFF` sentinel for an unset `Entry` index. -/
def null : Nat := 4294967295

/-- `Entry`: one reconciliation result (`Old`, `New`, `Status` as uint32). -/
structure EntryR where
  old : Nat
  new : Nat
  status : Nat
deriving DecidableEq

/-- `Result`: the entry list plus the status counters.  The `[4]atomic.Uint32`
counter array is a function from the status ordinal. -/
structure Result where
  E : List EntryR
  C : Nat → Nat

/-- `Result.Count`: the counter for status `s`. -/
def Result.Count (r : Result) (s : Nat) : Nat := r.C s

/-- `Result.All`: the (finite, restartable) iteration over all entries with
their decoded status `Status(e.Status & 0xFF)`, as the produced sequence. -/
def Result.All (r : Result) : List (Nat × EntryR) :=
  r.E.map fun e => (e.status &&& 255, e)

/-- `Result.Filter`: the iteration over entries whose decoded status equals
`s`, as the produced sequence. -/
def Result.Filter (r : Result) (s : Nat) : List EntryR :=
  r.E.filter fun e => e.status &&& 255 == s

/-! ## The reconciler `diffP` (diff.go)

The shard table is a partial map keyed by `(shard index, key)`: diff.go keeps
256 independent maps and selects one by `hash &&& shardMask`, so one key value
may live in several shards with distinct values.  The claim bitset is the list
of claimed cur indices; in the sequentialised schedule `TryMark` succeeds
exactly when the index has not been claimed yet. -/

/-- The sharded lookup table: `(shard, key) ↦ file index`. -/
def ShardMap := Nat × Nat → Option Nat

/-- Map update. -/
def mupd (m : ShardMap) (k : Nat × Nat) (v : Nat) : ShardMap :=
  fun q => if q = k then some v else m q

/-- One population step (diff.go:69-84): identity key inserted only if absent
(first occurrence wins), exact key always overwritten (last wins). -/
def phase2Step (curHashes curEntries : List Nat) (m : ShardMap) (i : Nat) : ShardMap :=
  let sh := curHashes.getD i 0 &&& 255
  let idKey := curHashes.getD i 0
  let exKey := curEntries.getD i 0 ||| ExactFlag
  let m1 := if (m (sh, idKey)).isSome then m else mupd m (sh, idKey) i
  mupd m1 (sh, exKey) i

/-- Phase 2 (diff.go:50-87): populate the shard table over the chunked cur
index range, workers sequentialised in ascending id. -/
def buildShards (curHashes curEntries : List Nat) (workers chunk newFiles : Nat) :
    ShardMap :=
  (workerRanges workers chunk newFiles).foldl
    (fun m r => (idxRange r.1 r.2).foldl (phase2Step curHashes curEntries) m)
    (fun _ => none)

/-- Classification of one old index (diff.go:111-137): exact probe, then
identity probe, then Removed.  Returns the appended entry, the bumped status
ordinal, and the updated claim set.  The Go guards
`old[i] == cur[exMatch] && TryMark(matches, exMatch)` and
`!IsMarked(matches, idMatch) && Equal(...) && TryMark(matches, idMatch)`
become membership tests on the claim set under the sequential schedule. -/
def classify (old cur : List Bytes) (oldHashes oldEntries : List Nat)
    (m : ShardMap) (marks : List Nat) (i : Nat) : EntryR × Nat × List Nat :=
  let sh := oldHashes.getD i 0 &&& 255
  let exCase : Option (EntryR × Nat × List Nat) :=
    match m (sh, oldEntries.getD i 0 ||| ExactFlag) with
    | some exMatch =>
      if old.getD i [] = cur.getD exMatch [] ∧ exMatch ∉ marks then
        some (⟨i, exMatch, Unchanged⟩, Unchanged, exMatch :: marks)
      else none
    | none => none
  match exCase with
  | some r => r
  | none =>
    match m (sh, oldHashes.getD i 0) with
    | some idMatch =>
      if idMatch ∉ marks ∧ Equal (old.getD i []) (cur.getD idMatch []) = true then
        (⟨i, idMatch, Updated⟩, Updated, idMatch :: marks)
      else (⟨i, null, Removed⟩, Removed, marks)
    | none => (⟨i, null, Removed⟩, Removed, marks)

/-- Bump a status counter array at ordinal `s`. -/
def bump (f : Nat → Nat) (s : Nat) : Nat → Nat :=
  fun t => if t = s then f t + 1 else f t

/-- One phase-3 loop iteration: append the classified entry to the worker's
buffer, bump its counter, thread the claim set. -/
def phase3Index (old cur : List Bytes) (oldHashes oldEntries : List Nat)
    (m : ShardMap) (acc : List EntryR × (Nat → Nat) × List Nat) (i : Nat) :
    List EntryR × (Nat → Nat) × List Nat :=
  let r := classify old cur oldHashes oldEntries m acc.2.2 i
  (acc.1 ++ [r.1], bump acc.2.1 r.2.1, r.2.2)

/-- One phase-3 worker (diff.go:107-141): local entry buffer and `status[3]`
counters over the worker's chunk. -/
def phase3Worker (old cur : List Bytes) (oldHashes oldEntries : List Nat)
    (m : ShardMap) (marks : List Nat) (lo hi : Nat) :
    List EntryR × (Nat → Nat) × List Nat :=
  (idxRange lo hi).foldl (phase3Index old cur oldHashes oldEntries m)
    ([], fun _ => 0, marks)

/-- Collect one worker's `(entries, status)` pair, threading the claim set. -/
def phase3Step (old cur : List Bytes) (oldHashes oldEntries : List Nat)
    (m : ShardMap) (acc : List (List EntryR × (Nat → Nat)) × List Nat)
    (r : Nat × Nat) : List (List EntryR × (Nat → Nat)) × List Nat :=
  let w := phase3Worker old cur oldHashes oldEntries m acc.2 r.1 r.2
  (acc.1 ++ [(w.1, w.2.1)], w.2.2)

/-- Phase 3 across workers: collect each worker's `(entries, status)` in
worker order, threading the claim set. -/
def phase3 (old cur : List Bytes) (oldHashes oldEntries : List Nat)
    (m : ShardMap) (ranges : List (Nat × Nat)) :
    List (List EntryR × (Nat → Nat)) × List Nat :=
  ranges.foldl (phase3Step old cur oldHashes oldEntries m) ([], [])

/-- One phase-4 worker (diff.go:158-170): every unclaimed cur index in the
chunk becomes an Added entry. -/
def phase4Worker (marks : List Nat) (lo hi : Nat) : List EntryR :=
  (idxRange lo hi).foldl
    (fun es i => if i ∈ marks then es else es ++ [⟨null, i, Added⟩]) []

/-- Phase 1 + 2 for a `diffP` call: hash cur and populate the shard table. -/
def shardsOf (H : Bytes → Nat) (cur : List Bytes) (workers : Nat) : ShardMap :=
  buildShards (HashAll H cur workers).1 (HashAll H cur workers).2 workers
    (chunkOf cur.length workers) cur.length

/-- Phase 3 for a `diffP` call.  NOTE: diff.go:97 recomputes the chunk size
from `newFiles` (the cur length), not from the old length, while the worker
loop bounds (diff.go:101,105) use the old length; this is transcribed
verbatim. -/
def phase3Of (H : Bytes → Nat) (old cur : List Bytes) (workers : Nat) :
    List (List EntryR × (Nat → Nat)) × List Nat :=
  phase3 old cur (HashAll H old workers).1 (HashAll H old workers).2
    (shardsOf H cur workers)
    (workerRanges workers (chunkOf cur.length workers) old.length)

/-- Phase 4 for a `diffP` call: per-worker addition buffers in worker order. -/
def additionsOf (H : Bytes → Nat) (old cur : List Bytes) (workers : Nat) :
    List (List EntryR) :=
  (workerRanges workers (chunkOf cur.length workers) cur.length).map fun r =>
    phase4Worker (phase3Of H old cur workers).2 r.1 r.2

/-- `l.foldl (fun a x => a + g x) 0`: the accumulation loops of the merge. -/
def sumBy (g : α → Nat) (l : List α) : Nat := l.foldl (fun a x => a + g x) 0

/-- The phase-3 buffers concatenated in worker order (diff.go:186-187). -/
def mergedThird (H : Bytes → Nat) (old cur : List Bytes) (workers : Nat) :
    List EntryR :=
  ((phase3Of H old cur workers).1.map fun pr => pr.1).flatten

/-- The phase-4 buffers concatenated in worker order (diff.go:196-197). -/
def mergedFourth (H : Bytes → Nat) (old cur : List Bytes) (workers : Nat) :
    List EntryR :=
  (additionsOf H old cur workers).flatten

/-- Phase 5 (diff.go:174-201): concatenate per-worker phase-3 buffers then
per-worker phase-4 buffers, accumulate the three phase-3 counters per worker
(diff.go:191-193), and set the Added counter to the total addition count
(diff.go:198). -/
def diffCore (H : Bytes → Nat) (old cur : List Bytes) (workers : Nat) : Result :=
  { E := mergedThird H old cur workers ++ mergedFourth H old cur workers
    C := fun s =>
      if s < 3 then sumBy (fun pr => pr.2 s) (phase3Of H old cur workers).1
      else if s = 3 then sumBy List.length (additionsOf H old cur workers)
      else 0 }

/-- `diffP` (diff.go:35-202) under the sequential worker schedule. -/
def diffP (H : Bytes → Nat) (old cur : List Bytes) (workers : Nat) : Result :=
  if old.length ||| cur.length = 0 then ⟨[], fun _ => 0⟩
  else diffCore H old cur workers

/-- `Diff` (diff.go:30-32): the hardware parallelism `runtime.GOMAXPROCS(0)`
is a parameter, clamped to at least 1. -/
def Diff (H : Bytes → Nat) (old cur : List Bytes) (gomaxprocs : Int) : Result :=
  diffP H old cur (max 1 gomaxprocs).toNat

/-- Modelled from the spec: the public wrapper exposing an explicit worker
count (`DiffP(old, cur, workers)`, spec §6) is part of the out-of-scope
public package and absent from this tree; per the spec it requires
`workers ≥ 1` and clamps other values before reaching the internal `diffP`. -/
def DiffP (H : Bytes → Nat) (old cur : List Bytes) (workers : Int) : Result :=
  diffP H old cur (max 1 workers).toNat

/-- A concrete stand-in for the seeded 64-bit hash, for concrete runs. -/
def Hpoly : Bytes → Nat := fun l => l.foldl (fun a b => a * 31 + b) 7

/-- The first identity span `bs[0:j]` selected by `Spans`. -/
def spanHead (bs : Bytes) : Bytes := bs.take (Spans bs).1

/-- The second identity span `bs[s:e]` selected by `Spans`. -/
def spanTail (bs : Bytes) : Bytes := (bs.take (Spans bs).2.2).drop (Spans bs).2.1

/-- The condition the spec states for one scan position: `bs[i] == '.'`,
`bs[i+1]` an ASCII digit, `bs[i-1] == 'o'`, `bs[i-2] == 's'`, `bs[i-3] == '.'`. -/
def sonameCond (bs : Bytes) (i : Nat) : Bool :=
  decide (bs.getD i 0 = 46) && isDigit (bs.getD (i + 1) 0) &&
  decide (bs.getD (i - 1) 0 = 111) && decide (bs.getD (i - 2) 0 = 115) &&
  decide (bs.getD (i - 3) 0 = 46)

/-- The spec's description of `Soname`: scanning from `len - 2` down to `3`,
the first position satisfying `sonameCond` — i.e. the greatest such position
in `[3, len - 2]` — and `0` when none exists. -/
def sonameSpec (bs : Bytes) : Nat :=
  Nat.findGreatest (fun i => 3 ≤ i ∧ sonameCond bs i = true) (bs.length - 2)

/-! ## Bounds of the matchers -/

theorem sonameLoop_le (bs : Bytes) : ∀ p, sonameLoop bs p ≤ p := by
  intro p
  induction p using Nat.strong_induction_on with
  | _ p ih =>
    match p with
    | 0 => simp [sonameLoop]
    | 1 => simp [sonameLoop]
    | 2 => simp [sonameLoop]
    | (i + 3) =>
      rw [sonameLoop]
      split
      · exact Nat.le_refl _
      · have := ih (i + 2) (by omega)
        omega

theorem Soname_le (bs : Bytes) : Soname bs ≤ bs.length := by
  have := sonameLoop_le bs (bs.length - 2)
  unfold Soname
  omega

theorem suffixDigits_le (bs : Bytes) : ∀ p, suffixDigits bs p ≤ p := by
  intro p
  induction p with
  | zero => simp [suffixDigits]
  | succ p ih =>
    rw [suffixDigits]
    split
    · omega
    · exact Nat.le_refl _

theorem suffixLoop_le (bs : Bytes) (length : Nat) : ∀ p, suffixLoop bs length p ≤ p := by
  intro p
  induction p with
  | zero => simp [suffixLoop]
  | succ p ih =>
    rw [suffixLoop]
    split
    · omega
    · split
      · omega
      · omega

theorem Suffix_le (bs : Bytes) : Suffix bs ≤ bs.length := by
  unfold Suffix
  dsimp only
  split
  · omega
  · split
    · split
      · have h1 := suffixLoop_le bs bs.length (suffixDigits bs bs.length - 2)
        have h2 := suffixDigits_le bs bs.length
        omega
      · have h1 := suffixLoop_le bs bs.length (suffixDigits bs bs.length)
        have h2 := suffixDigits_le bs bs.length
        omega
    · exact suffixLoop_le bs bs.length bs.length

theorem lastDot_le (bs : Bytes) : ∀ p e, lastDot bs p = some e → 1 ≤ e ∧ e ≤ p := by
  intro p
  induction p with
  | zero => intro e h; simp [lastDot] at h
  | succ p ih =>
    intro e h
    rw [lastDot] at h
    split at h
    · cases h
      omega
    · have := ih e h
      omega

theorem embLoop_bound (bs : Bytes) :
    ∀ p dots, (embLoop bs p dots).1 + (embLoop bs p dots).2 ≤ p + dots := by
  intro p
  induction p with
  | zero => intro dots; simp [embLoop]
  | succ p ih =>
    intro dots
    rw [embLoop]
    split
    · have := ih dots
      omega
    · split
      · have := ih (dots + 1)
        omega
      · omega

theorem Embedded_spec (bs : Bytes) :
    ((Embedded bs).1 = 0 ∧ (Embedded bs).2 = 0) ∨
      ((Embedded bs).1 < (Embedded bs).2 ∧ (Embedded bs).2 < bs.length) := by
  unfold Embedded
  dsimp only
  split
  · exact Or.inl ⟨rfl, rfl⟩
  · split
    · exact Or.inl ⟨rfl, rfl⟩
    · rename_i ext heq
      split
      · exact Or.inl ⟨rfl, rfl⟩
      · split
        · rename_i hrange hcond
          right
          have hd := lastDot_le bs (bs.length - 1) ext heq
          have hb := embLoop_bound bs ext 0
          constructor
          · omega
          · omega
        · exact Or.inl ⟨rfl, rfl⟩

theorem checksumLoop_le (bs : Bytes) (length : Nat) :
    ∀ p c, checksumLoop bs length p = some c → 4 ≤ c ∧ c ≤ p := by
  intro p
  induction p using Nat.strong_induction_on with
  | _ p ih =>
    match p with
    | 0 => intro c h; simp [checksumLoop] at h
    | 1 => intro c h; simp [checksumLoop] at h
    | 2 => intro c h; simp [checksumLoop] at h
    | 3 => intro c h; simp [checksumLoop] at h
    | (i + 4) =>
      intro c h
      rw [checksumLoop] at h
      split at h
      · cases h
        omega
      · have := ih (i + 3) (by omega) c h
        omega

theorem dashLoop_spec (bs : Bytes) (cs : Nat) :
    ∀ p v, dashLoop bs cs p = some v → 1 ≤ v ∧ v + 1 < cs ∧ v ≤ p := by
  intro p
  induction p with
  | zero => intro v h; simp [dashLoop] at h
  | succ p ih =>
    intro v h
    rw [dashLoop] at h
    split at h
    · rename_i hc
      cases h
      omega
    · have := ih v h
      omega

theorem scriptSuffixes_len : ∀ suf ∈ scriptSuffixes, 8 ≤ suf.length := by
  decide

theorem scriptStart_spec (bs : Bytes) :
    0 < scriptStart bs → 1 ≤ scriptStart bs ∧ scriptStart bs + 8 ≤ bs.length := by
  unfold scriptStart
  split
  · rename_i suf hf
    intro h
    have hp := List.find?_some hf
    have hmem := List.mem_of_find?_eq_some hf
    have h8 := scriptSuffixes_len suf hmem
    simp only [Bool.and_eq_true, decide_eq_true_eq] at hp
    omega
  · intro h
    simp at h

theorem Script_spec (bs : Bytes) :
    ((Script bs).1 = 0 ∧ (Script bs).2 = 0) ∨
      ((Script bs).1 < (Script bs).2 ∧ (Script bs).2 < bs.length) := by
  unfold Script
  dsimp only
  split
  · exact Or.inl ⟨rfl, rfl⟩
  · split
    · exact Or.inl ⟨rfl, rfl⟩
    · rename_i hs
      split
      · exact Or.inl ⟨rfl, rfl⟩
      · rename_i c hcs
        split
        · exact Or.inl ⟨rfl, rfl⟩
        · rename_i v hd
          right
          have h1 := checksumLoop_le bs bs.length (scriptStart bs - 2) c hcs
          have h2 := dashLoop_spec bs c (c - 1) v hd
          have h3 := scriptStart_spec bs (by omega)
          omega

/-! ## The identity as the pair of span contents -/

theorem equal_eq_true_iff (a b : Bytes) :
    Equal a b = true ↔
      (Spans a).1 = (Spans b).1 ∧
      (Spans a).2.2 - (Spans a).2.1 = (Spans b).2.2 - (Spans b).2.1 ∧
      spanHead a = spanHead b ∧ spanTail a = spanTail b := by
  unfold Equal spanHead spanTail
  dsimp only
  split
  · rename_i hc
    simp only [Bool.false_eq_true, false_iff]
    intro ⟨h1, h2, _, _⟩
    exact hc.elim (fun h => h h1) (fun h => h h2)
  · rename_i hc
    push_neg at hc
    simp only [Bool.and_eq_true, decide_eq_true_eq]
    constructor
    · intro ⟨h3, h4⟩
      exact ⟨hc.1, hc.2, h3, h4⟩
    · intro ⟨_, _, h3, h4⟩
      exact ⟨h3, h4⟩

theorem Equal_refl (a : Bytes) : Equal a a = true :=
  (equal_eq_true_iff a a).mpr ⟨rfl, rfl, rfl, rfl⟩

theorem Equal_symm (a b : Bytes) : Equal a b = Equal b a := by
  have ha := equal_eq_true_iff a b
  have hb := equal_eq_true_iff b a
  cases h : Equal b a with
  | true =>
    exact ha.mpr (by
      obtain ⟨h1, h2, h3, h4⟩ := hb.mp h
      exact ⟨h1.symm, h2.symm, h3.symm, h4.symm⟩)
  | false =>
    cases h2 : Equal a b with
    | false => rfl
    | true =>
      obtain ⟨h1', h2', h3', h4'⟩ := ha.mp h2
      have := hb.mpr ⟨h1'.symm, h2'.symm, h3'.symm, h4'.symm⟩
      rw [h] at this
      exact this.symm

/-- `Hash`'s identity hash is determined by the span contents that `Spans`
selects: a single-span identity hashes its head, a split-span identity XORs
the head and tail hashes.  This aligns hash source 134-154 with
identity.go:32-52, which run the same cascade. -/
theorem hash_via_spans (H : Bytes → Nat) (bs : Bytes) :
    (Hash H bs).1 =
      (if spanTail bs = [] then H (spanHead bs)
       else H (spanHead bs) ^^^ H (spanTail bs)) &&& maskLow := by
  unfold Hash spanHead spanTail Spans
  dsimp only
  by_cases h0 : bs.length = 0
  · have hbs : bs = [] := List.length_eq_zero.mp h0
    subst hbs
    rfl
  · by_cases hso : 0 < Soname bs
    · simp [h0, hso]
    · by_cases hsc : 0 < (Script bs).1
      · have hb := Script_spec bs
        have h2 : ¬bs.length ≤ (Script bs).2 := by omega
        simp [h0, hso, hsc, h2]
      · by_cases hem : 0 < (Embedded bs).1
        · have hb := Embedded_spec bs
          have h2 : ¬bs.length ≤ (Embedded bs).2 := by omega
          simp [h0, hso, hsc, hem, h2]
        · by_cases hsu : 0 < Suffix bs
          · simp [h0, hso, hsc, hem, hsu]
          · simp [h0, hso, hsc, hem, hsu]

/-- Equal identities hash to equal identity hashes, for any seed. -/
theorem hash_consistent (H : Bytes → Nat) (a b : Bytes) (h : Equal a b = true) :
    (Hash H a).1 = (Hash H b).1 := by
  obtain ⟨h1, h2, h3, h4⟩ := (equal_eq_true_iff a b).mp h
  rw [hash_via_spans, hash_via_spans, h3, h4]

/-! ## Worker chunk coverage -/

theorem workerRanges_succ (w c n : Nat) :
    workerRanges (w + 1) c n =
      workerRanges w c n ++ (if w * c < n then [(w * c, min (w * c + c) n)] else []) := by
  unfold workerRanges
  rw [List.range_succ, List.filterMap_append]
  congr 1
  dsimp only [List.filterMap]
  split <;> simp_all

/-- Concatenating the per-worker index chunks in worker order yields the
ascending initial segment `[0, min (w*c) n)` of the bound. -/
theorem flat_workerRanges (c n : Nat) :
    ∀ w, ((workerRanges w c n).map fun r => idxRange r.1 r.2).flatten =
      List.range (min (w * c) n) := by
  intro w
  induction w with
  | zero => simp [workerRanges]
  | succ w ih =>
    rw [workerRanges_succ, List.map_append, List.flatten_append, ih]
    by_cases h : w * c < n
    · rw [if_pos h]
      have hmul : (w + 1) * c = w * c + c := by ring
      have hmin1 : min (w * c) n = w * c := by omega
      have hmin2 : min ((w + 1) * c) n = w * c + min c (n - w * c) := by omega
      have hk : min (w * c + c) n = w * c + min c (n - w * c) := by omega
      rw [hmin1, hmin2, hk]
      simp only [List.map_cons, List.map_nil, List.flatten_cons, List.flatten_nil,
        List.append_nil, idxRange]
      rw [List.range_add, Nat.add_sub_cancel_left]
    · rw [if_neg h]
      have h1 : min (w * c) n = n := by omega
      have hmul : (w + 1) * c = w * c + c := by ring
      have h2 : min ((w + 1) * c) n = n := by omega
      simp [h1, h2]

/-! ## Phase-3 structure -/

theorem classify_cases (old cur : List Bytes) (oldHashes oldEntries : List Nat)
    (m : ShardMap) (marks : List Nat) (i : Nat) :
    (∃ mi, classify old cur oldHashes oldEntries m marks i =
        (⟨i, mi, Unchanged⟩, Unchanged, mi :: marks)) ∨
    (∃ mi, classify old cur oldHashes oldEntries m marks i =
        (⟨i, mi, Updated⟩, Updated, mi :: marks) ∧
        Equal (old.getD i []) (cur.getD mi []) = true) ∨
    classify old cur oldHashes oldEntries m marks i =
        (⟨i, null, Removed⟩, Removed, marks) := by
  unfold classify
  dsimp only
  cases h1 : m (oldHashes.getD i 0 &&& 255, oldEntries.getD i 0 ||| ExactFlag) with
  | some ex =>
    dsimp only
    by_cases h2 : old.getD i [] = cur.getD ex [] ∧ ex ∉ marks
    · left
      refine ⟨ex, ?_⟩
      rw [if_pos h2]
    · rw [if_neg h2]
      cases h3 : m (oldHashes.getD i 0 &&& 255, oldHashes.getD i 0) with
      | some idm =>
        dsimp only
        by_cases h4 : idm ∉ marks ∧ Equal (old.getD i []) (cur.getD idm []) = true
        · right; left
          refine ⟨idm, ?_, h4.2⟩
          rw [if_pos h4]
        · right; right
          rw [if_neg h4]
      | none =>
        right; right
        rfl
  | none =>
    dsimp only
    cases h3 : m (oldHashes.getD i 0 &&& 255, oldHashes.getD i 0) with
    | some idm =>
      dsimp only
      by_cases h4 : idm ∉ marks ∧ Equal (old.getD i []) (cur.getD idm []) = true
      · right; left
        refine ⟨idm, ?_, h4.2⟩
        rw [if_pos h4]
      · right; right
        rw [if_neg h4]
    | none =>
      right; right
      rfl

theorem phase3Index_step (old cur : List Bytes) (oldHashes oldEntries : List Nat)
    (m : ShardMap) (acc : List EntryR × (Nat → Nat) × List Nat) (i : Nat) :
    ∃ e s marks',
      phase3Index old cur oldHashes oldEntries m acc i =
        (acc.1 ++ [e], bump acc.2.1 s, marks') ∧
      e.old = i ∧ e.status = s ∧ s < 3 ∧
      (s = Updated → Equal (old.getD i []) (cur.getD e.new []) = true) := by
  rcases classify_cases old cur oldHashes oldEntries m acc.2.2 i with
    ⟨mi, h⟩ | ⟨mi, h, heq⟩ | h
  · exact ⟨⟨i, mi, Unchanged⟩, Unchanged, mi :: acc.2.2,
      by unfold phase3Index; rw [h], rfl, rfl, by norm_num [Unchanged],
      by intro hc; simp [Unchanged, Updated] at hc⟩
  · exact ⟨⟨i, mi, Updated⟩, Updated, mi :: acc.2.2,
      by unfold phase3Index; rw [h], rfl, rfl, by norm_num [Updated],
      fun _ => heq⟩
  · exact ⟨⟨i, null, Removed⟩, Removed, acc.2.2,
      by unfold phase3Index; rw [h], rfl, rfl, by norm_num [Removed],
      by intro hc; simp [Removed, Updated] at hc⟩

theorem phase3_fold_old (old cur : List Bytes) (oldHashes oldEntries : List Nat)
    (m : ShardMap) :
    ∀ (is : List Nat) (acc : List EntryR × (Nat → Nat) × List Nat),
      ((is.foldl (phase3Index old cur oldHashes oldEntries m) acc).1).map (·.old) =
        acc.1.map (·.old) ++ is := by
  intro is
  induction is with
  | nil => intro acc; simp
  | cons i is ih =>
    intro acc
    rw [List.foldl_cons, ih]
    obtain ⟨e, s, marks', heq, hold, -, -, -⟩ :=
      phase3Index_step old cur oldHashes oldEntries m acc i
    rw [heq]
    simp [hold]

theorem phase3_fold_count (old cur : List Bytes) (oldHashes oldEntries : List Nat)
    (m : ShardMap) :
    ∀ (is : List Nat) (acc : List EntryR × (Nat → Nat) × List Nat),
      (∀ s, acc.2.1 s = acc.1.countP (fun e => e.status == s)) →
      ∀ s, (is.foldl (phase3Index old cur oldHashes oldEntries m) acc).2.1 s =
        ((is.foldl (phase3Index old cur oldHashes oldEntries m) acc).1).countP
          (fun e => e.status == s) := by
  intro is
  induction is with
  | nil => intro acc h s; exact h s
  | cons i is ih =>
    intro acc h s
    rw [List.foldl_cons]
    obtain ⟨e, s0, marks', heq, -, hstat, -, -⟩ :=
      phase3Index_step old cur oldHashes oldEntries m acc i
    rw [heq]
    refine ih _ ?_ s
    intro t
    simp only [List.countP_append, List.countP_cons, List.countP_nil, bump, h t, hstat]
    by_cases ht : t = s0
    · simp [ht]
    · have : ¬s0 = t := fun hc => ht hc.symm
      simp [ht, this]

theorem phase3_fold_mem (old cur : List Bytes) (oldHashes oldEntries : List Nat)
    (m : ShardMap) :
    ∀ (is : List Nat) (acc : List EntryR × (Nat → Nat) × List Nat),
      ∀ e ∈ (is.foldl (phase3Index old cur oldHashes oldEntries m) acc).1,
        e ∈ acc.1 ∨
          (e.status < 3 ∧
            (e.status = Updated → Equal (old.getD e.old []) (cur.getD e.new []) = true)) := by
  intro is
  induction is with
  | nil => intro acc e he; exact Or.inl he
  | cons i is ih =>
    intro acc e he
    rw [List.foldl_cons] at he
    obtain ⟨e0, s0, marks', heq, hold, hstat, hlt, hupd⟩ :=
      phase3Index_step old cur oldHashes oldEntries m acc i
    rw [heq] at he
    rcases ih _ e he with hin | hprop
    · rcases List.mem_append.mp hin with hin | hin
      · exact Or.inl hin
      · right
        have he0 : e = e0 := by simpa using hin
        subst he0
        rw [hstat, hold]
        exact ⟨hlt, hupd⟩
    · exact Or.inr hprop

theorem phase3Worker_old (old cur : List Bytes) (oldHashes oldEntries : List Nat)
    (m : ShardMap) (marks : List Nat) (lo hi : Nat) :
    ((phase3Worker old cur oldHashes oldEntries m marks lo hi).1).map (·.old) =
      idxRange lo hi := by
  unfold phase3Worker
  rw [phase3_fold_old]
  simp

theorem phase3Worker_count (old cur : List Bytes) (oldHashes oldEntries : List Nat)
    (m : ShardMap) (marks : List Nat) (lo hi : Nat) :
    ∀ s, (phase3Worker old cur oldHashes oldEntries m marks lo hi).2.1 s =
      ((phase3Worker old cur oldHashes oldEntries m marks lo hi).1).countP
        (fun e => e.status == s) := by
  unfold phase3Worker
  exact phase3_fold_count old cur oldHashes oldEntries m _ _ (fun s => rfl)

theorem phase3Worker_mem (old cur : List Bytes) (oldHashes oldEntries : List Nat)
    (m : ShardMap) (marks : List Nat) (lo hi : Nat) :
    ∀ e ∈ (phase3Worker old cur oldHashes oldEntries m marks lo hi).1,
      e.status < 3 ∧
        (e.status = Updated → Equal (old.getD e.old []) (cur.getD e.new []) = true) := by
  intro e he
  rcases phase3_fold_mem old cur oldHashes oldEntries m _ _ e he with hin | hprop
  · simp at hin
  · exact hprop

theorem phase3_olds (old cur : List Bytes) (oldHashes oldEntries : List Nat)
    (m : ShardMap) :
    ∀ (ranges : List (Nat × Nat)) (acc : List (List EntryR × (Nat → Nat)) × List Nat),
      ((ranges.foldl (phase3Step old cur oldHashes oldEntries m) acc).1).map
          (fun pr => pr.1.map (·.old)) =
        acc.1.map (fun pr => pr.1.map (·.old)) ++
          ranges.map (fun r => idxRange r.1 r.2) := by
  intro ranges
  induction ranges with
  | nil => intro acc; simp
  | cons r rs ih =>
    intro acc
    rw [List.foldl_cons, ih]
    simp [phase3Step, phase3Worker_old]

theorem phase3_pairs (old cur : List Bytes) (oldHashes oldEntries : List Nat)
    (m : ShardMap) :
    ∀ (ranges : List (Nat × Nat)) (acc : List (List EntryR × (Nat → Nat)) × List Nat),
      (∀ pr ∈ acc.1,
        (∀ s, pr.2 s = pr.1.countP (fun e => e.status == s)) ∧
        ∀ e ∈ pr.1, e.status < 3 ∧
          (e.status = Updated → Equal (old.getD e.old []) (cur.getD e.new []) = true)) →
      ∀ pr ∈ (ranges.foldl (phase3Step old cur oldHashes oldEntries m) acc).1,
        (∀ s, pr.2 s = pr.1.countP (fun e => e.status == s)) ∧
        ∀ e ∈ pr.1, e.status < 3 ∧
          (e.status = Updated → Equal (old.getD e.old []) (cur.getD e.new []) = true) := by
  intro ranges
  induction ranges with
  | nil => intro acc h pr hpr; exact h pr hpr
  | cons r rs ih =>
    intro acc h pr hpr
    rw [List.foldl_cons] at hpr
    refine ih _ ?_ pr hpr
    intro q hq
    rcases List.mem_append.mp hq with hin | hin
    · exact h q hin
    · have hq' : q = ((phase3Worker old cur oldHashes oldEntries m acc.2 r.1 r.2).1,
          (phase3Worker old cur oldHashes oldEntries m acc.2 r.1 r.2).2.1) := by
        simpa [phase3Step] using hin
      subst hq'
      exact ⟨phase3Worker_count old cur oldHashes oldEntries m acc.2 r.1 r.2,
        phase3Worker_mem old cur oldHashes oldEntries m acc.2 r.1 r.2⟩

/-! ## Phase-4 structure -/

theorem phase4_fold (marks : List Nat) :
    ∀ (is : List Nat) (es : List EntryR),
      is.foldl (fun es i => if i ∈ marks then es else es ++ [⟨null, i, Added⟩]) es =
        es ++ (is.filter fun i => decide (i ∉ marks)).map
          (fun i => (⟨null, i, Added⟩ : EntryR)) := by
  intro is
  induction is with
  | nil => intro es; simp
  | cons i is ih =>
    intro es
    rw [List.foldl_cons]
    by_cases h : i ∈ marks
    · rw [if_pos h, ih]
      simp [List.filter_cons, h]
    · rw [if_neg h, ih]
      simp [List.filter_cons, h]

theorem phase4Worker_eq (marks : List Nat) (lo hi : Nat) :
    phase4Worker marks lo hi =
      ((idxRange lo hi).filter fun i => decide (i ∉ marks)).map
        (fun i => (⟨null, i, Added⟩ : EntryR)) := by
  unfold phase4Worker
  rw [phase4_fold]
  simp

/-! ## The merged result -/

theorem sumBy_eq (g : α → Nat) (l : List α) : sumBy g l = (l.map g).sum := by
  suffices h : ∀ (l : List α) (a : Nat), l.foldl (fun a x => a + g x) a = a + (l.map g).sum by
    simpa using h l 0
  intro l
  induction l with
  | nil => intro a; simp
  | cons x xs ih =>
    intro a
    rw [List.foldl_cons, ih]
    simp
    omega

theorem countP_three (l : List EntryR) :
    (∀ e ∈ l, e.status < 3) →
    l.countP (fun e => e.status == 0) + l.countP (fun e => e.status == 1) +
      l.countP (fun e => e.status == 2) = l.length := by
  induction l with
  | nil => intro _; simp
  | cons a l ih =>
    intro h
    have ha := h a (List.mem_cons_self a l)
    have ih' := ih fun e he => h e (List.mem_cons_of_mem a he)
    have hcases : a.status = 0 ∨ a.status = 1 ∨ a.status = 2 := by omega
    rcases hcases with h0 | h0 | h0
    · simp [List.countP_cons, h0]
      omega
    · simp [List.countP_cons, h0]
      omega
    · simp [List.countP_cons, h0]
      omega

theorem and255_of_lt (x : Nat) (h : x < 4) : x &&& 255 = x := by
  interval_cases x <;> rfl

theorem phase3Of_olds (H : Bytes → Nat) (old cur : List Bytes) (workers : Nat) :
    (phase3Of H old cur workers).1.map (fun pr => pr.1.map (·.old)) =
      (workerRanges workers (chunkOf cur.length workers) old.length).map
        (fun r => idxRange r.1 r.2) := by
  unfold phase3Of phase3
  rw [phase3_olds]
  simp

theorem phase3Of_pairs (H : Bytes → Nat) (old cur : List Bytes) (workers : Nat) :
    ∀ pr ∈ (phase3Of H old cur workers).1,
      (∀ s, pr.2 s = pr.1.countP (fun e => e.status == s)) ∧
      ∀ e ∈ pr.1, e.status < 3 ∧
        (e.status = Updated → Equal (old.getD e.old []) (cur.getD e.new []) = true) := by
  unfold phase3Of phase3
  refine phase3_pairs _ _ _ _ _ _ _ ?_
  intro pr h
  simp at h

theorem mergedThird_olds (H : Bytes → Nat) (old cur : List Bytes) (workers : Nat) :
    (mergedThird H old cur workers).map (·.old) =
      List.range (min (workers * chunkOf cur.length workers) old.length) := by
  unfold mergedThird
  rw [List.map_flatten, List.map_map]
  have : (List.map (·.old) ∘ fun pr : List EntryR × (Nat → Nat) => pr.1) =
      fun pr : List EntryR × (Nat → Nat) => pr.1.map (·.old) := rfl
  rw [this, phase3Of_olds, flat_workerRanges]

theorem mergedThird_mem (H : Bytes → Nat) (old cur : List Bytes) (workers : Nat) :
    ∀ e ∈ mergedThird H old cur workers,
      e.status < 3 ∧
        (e.status = Updated → Equal (old.getD e.old []) (cur.getD e.new []) = true) := by
  intro e he
  unfold mergedThird at he
  obtain ⟨l, hl, hel⟩ := List.mem_flatten.mp he
  obtain ⟨pr, hpr, rfl⟩ := List.mem_map.mp hl
  exact (phase3Of_pairs H old cur workers pr hpr).2 e hel

theorem mergedThird_countP (H : Bytes → Nat) (old cur : List Bytes) (workers : Nat)
    (s : Nat) :
    sumBy (fun pr => pr.2 s) (phase3Of H old cur workers).1 =
      (mergedThird H old cur workers).countP (fun e => e.status == s) := by
  unfold mergedThird
  rw [sumBy_eq, List.countP_flatten, List.map_map]
  congr 1
  apply List.map_congr_left
  intro pr hpr
  exact (phase3Of_pairs H old cur workers pr hpr).1 s

theorem mergedFourth_eq (H : Bytes → Nat) (old cur : List Bytes) (workers : Nat) :
    mergedFourth H old cur workers =
      ((List.range (min (workers * chunkOf cur.length workers) cur.length)).filter
          (fun i => decide (i ∉ (phase3Of H old cur workers).2))).map
        (fun i => (⟨null, i, Added⟩ : EntryR)) := by
  unfold mergedFourth additionsOf
  have key : ∀ (Ls : List (List Nat)) (marks : List Nat),
      (Ls.map (fun is => (is.filter fun i => decide (i ∉ marks)).map
          (fun i => (⟨null, i, Added⟩ : EntryR)))).flatten =
        (Ls.flatten.filter fun i => decide (i ∉ marks)).map
          (fun i => (⟨null, i, Added⟩ : EntryR)) := by
    intro Ls marks
    induction Ls with
    | nil => simp
    | cons is Ls ih =>
      simp only [List.map_cons, List.flatten_cons, List.filter_append, List.map_append, ih]
  have hmap : ((workerRanges workers (chunkOf cur.length workers) cur.length).map
      fun r => phase4Worker (phase3Of H old cur workers).2 r.1 r.2) =
      ((workerRanges workers (chunkOf cur.length workers) cur.length).map
        fun r => idxRange r.1 r.2).map (fun is =>
          (is.filter fun i => decide (i ∉ (phase3Of H old cur workers).2)).map
            (fun i => (⟨null, i, Added⟩ : EntryR))) := by
    rw [List.map_map]
    apply List.map_congr_left
    intro r hr
    exact phase4Worker_eq _ _ _
  rw [hmap, key, flat_workerRanges]

theorem mergedFourth_news (H : Bytes → Nat) (old cur : List Bytes) (workers : Nat) :
    (mergedFourth H old cur workers).map (·.new) =
      (List.range (min (workers * chunkOf cur.length workers) cur.length)).filter
        (fun i => decide (i ∉ (phase3Of H old cur workers).2)) := by
  rw [mergedFourth_eq, List.map_map]
  have hid : ((fun e : EntryR => e.new) ∘ fun i => (⟨null, i, Added⟩ : EntryR)) = id := rfl
  rw [hid, List.map_id]

theorem mergedFourth_mem (H : Bytes → Nat) (old cur : List Bytes) (workers : Nat) :
    ∀ e ∈ mergedFourth H old cur workers, e.status = Added ∧ e.old = null := by
  intro e he
  rw [mergedFourth_eq] at he
  obtain ⟨i, -, rfl⟩ := List.mem_map.mp he
  exact ⟨rfl, rfl⟩

theorem mergedFourth_length (H : Bytes → Nat) (old cur : List Bytes) (workers : Nat) :
    sumBy List.length (additionsOf H old cur workers) =
      (mergedFourth H old cur workers).length := by
  unfold mergedFourth
  rw [sumBy_eq, List.length_flatten]

theorem diffCore_E (H : Bytes → Nat) (old cur : List Bytes) (workers : Nat) :
    (diffCore H old cur workers).E =
      mergedThird H old cur workers ++ mergedFourth H old cur workers := rfl

theorem diffCore_C_lt3 (H : Bytes → Nat) (old cur : List Bytes) (workers : Nat)
    (s : Nat) (hs : s < 3) :
    (diffCore H old cur workers).C s =
      (mergedThird H old cur workers).countP (fun e => e.status == s) := by
  unfold diffCore
  dsimp only
  rw [if_pos hs, mergedThird_countP]

theorem diffCore_C_3 (H : Bytes → Nat) (old cur : List Bytes) (workers : Nat) :
    (diffCore H old cur workers).C 3 = (mergedFourth H old cur workers).length := by
  unfold diffCore
  dsimp only
  rw [if_neg (by omega : ¬(3 : Nat) < 3), if_pos rfl, mergedFourth_length]

/-! ## The spec-side description of `Soname` -/

theorem sonameLoop_eq_findGreatest (bs : Bytes) :
    ∀ p, sonameLoop bs p =
      Nat.findGreatest (fun i => 3 ≤ i ∧ sonameCond bs i = true) p := by
  intro p
  induction p using Nat.strong_induction_on with
  | _ p ih =>
    match p with
    | 0 => rw [sonameLoop, Nat.findGreatest_zero]
    | 1 =>
      rw [sonameLoop, Nat.findGreatest_succ, Nat.findGreatest_zero,
        if_neg fun hc => absurd hc.1 (by omega)]
    | 2 =>
      rw [sonameLoop, Nat.findGreatest_succ, Nat.findGreatest_succ, Nat.findGreatest_zero,
        if_neg fun hc => absurd hc.1 (by omega), if_neg fun hc => absurd hc.1 (by omega)]
    | (q + 3) =>
      rw [sonameLoop, Nat.findGreatest_succ]
      have e1 : q + 3 - 1 = q + 2 := by omega
      have e2 : q + 3 - 2 = q + 1 := by omega
      have e3 : q + 3 - 3 = q := by omega
      have hc : (3 ≤ q + 3 ∧ sonameCond bs (q + 3) = true) ↔
          (bs.getD (q + 3) 0 = 46 ∧ isDigit (bs.getD (q + 4) 0) = true ∧
            bs.getD (q + 2) 0 = 111 ∧ bs.getD (q + 1) 0 = 115 ∧ bs.getD q 0 = 46) := by
        simp only [sonameCond, e1, e2, e3, Bool.and_eq_true, decide_eq_true_eq]
        constructor
        · rintro ⟨-, ⟨⟨⟨hA, hb⟩, hc⟩, hd⟩, he⟩
          exact ⟨hA, hb, hc, hd, he⟩
        · rintro ⟨ha, hb, hc, hd, he⟩
          exact ⟨by omega, ⟨⟨⟨ha, hb⟩, hc⟩, hd⟩, he⟩
      by_cases hcnd : bs.getD (q + 3) 0 = 46 ∧ isDigit (bs.getD (q + 4) 0) = true ∧
          bs.getD (q + 2) 0 = 111 ∧ bs.getD (q + 1) 0 = 115 ∧ bs.getD q 0 = 46
      · rw [if_pos hcnd, if_pos (hc.mpr hcnd)]
      · rw [if_neg hcnd, if_neg fun hp => hcnd (hc.mp hp)]
        exact ih (q + 2) (by omega)

/-! ## Claim theorems -/

/-- C1: the claim states that `diffP` classifies every old index into exactly
one Unchanged, Updated or Removed entry, so the three counters sum to `|old|`.
The code computes the phase-3 chunk size from the cur length (diff.go:97), so
with `old = ["a","b"]`, `cur = []`, `workers = 1` the chunk is `1` and only
old index 0 is classified: the counters sum to 1 while `|old| = 2`. -/
theorem c1_old_partition_failing :
    (diffP Hpoly [bytes "a", bytes "b"] [] 1).E = [⟨0, null, Removed⟩] ∧
    (diffP Hpoly [bytes "a", bytes "b"] [] 1).Count Unchanged +
      (diffP Hpoly [bytes "a", bytes "b"] [] 1).Count Updated +
      (diffP Hpoly [bytes "a", bytes "b"] [] 1).Count Removed = 1 ∧
    ([bytes "a", bytes "b"] : List Bytes).length = 2 := by
  decide

/-- C2 counterexample: the claim also asserts `old[e.old] ≠ cur[e.new]` for
Updated entries; with duplicate strings (`old = cur = ["a","a"]`) the exact
key points at index 1 (last wins) while the identity key points at index 0
(first wins), so old index 1 is classified Updated against cur index 0 even
though the two strings are byte-equal. -/
theorem c2_byte_equal_updated :
    (diffP Hpoly [bytes "a", bytes "a"] [bytes "a", bytes "a"] 1).E =
      [⟨0, 1, Unchanged⟩, ⟨1, 0, Updated⟩] ∧
    ([bytes "a", bytes "a"] : List Bytes).getD 1 [] =
      ([bytes "a", bytes "a"] : List Bytes).getD 0 [] := by
  decide

/-- C2 (amended): every Updated entry of a `diffP` result satisfies
`Equal(old[e.old], cur[e.new])`; the byte-inequality half of the claim does
not hold in general (see the counterexample). -/
theorem c2_updated_equal (H : Bytes → Nat) (old cur : List Bytes) (workers : Nat) :
    ∀ e ∈ (diffP H old cur workers).E, e.status = Updated →
      Equal (old.getD e.old []) (cur.getD e.new []) = true := by
  intro e he hupd
  unfold diffP at he
  split at he
  · simp at he
  · rw [diffCore_E] at he
    rcases List.mem_append.mp he with h | h
    · exact (mergedThird_mem H old cur workers e h).2 hupd
    · have h3 := (mergedFourth_mem H old cur workers e h).1
      rw [hupd] at h3
      exact absurd h3 (by decide)

/-- C2 witness: the amended theorem applied to the Updated entry `⟨1, 0, 1⟩`
of the duplicate-strings run. -/
theorem c2_updated_equal_witness :
    Equal (([bytes "a", bytes "a"] : List Bytes).getD 1 [])
      (([bytes "a", bytes "a"] : List Bytes).getD 0 []) = true :=
  c2_updated_equal Hpoly [bytes "a", bytes "a"] [bytes "a", bytes "a"] 1
    ⟨1, 0, Updated⟩ (by decide) rfl

/-- C3: the claim's all-distinct case demands `|old|` Removed plus `|cur|`
Added entries.  With `old = ["a","b","c"]`, `cur = ["x"]`, `workers = 1` (no
shared string or identity), the phase-3 chunk computed from `|cur|`
(diff.go:97) classifies only old index 0, so the Result has 1 Removed (and 1
Added) instead of 3 Removed and 1 Added. -/
theorem c3_all_distinct_failing :
    (diffP Hpoly [bytes "a", bytes "b", bytes "c"] [bytes "x"] 1).Count Removed = 1 ∧
    (diffP Hpoly [bytes "a", bytes "b", bytes "c"] [bytes "x"] 1).Count Added = 1 ∧
    ([bytes "a", bytes "b", bytes "c"] : List Bytes).length = 3 := by
  decide

/-- C4: the spec-modelled public wrapper `DiffP` accepts any integer worker
count, including zero and negatives, clamps it to at least 1, and returns the
`diffP` Result for the clamped count. -/
theorem c4_diffP_clamped (H : Bytes → Nat) (old cur : List Bytes) (w : Int) :
    ∃ w' : Nat, 1 ≤ w' ∧ DiffP H old cur w = diffP H old cur w' := by
  refine ⟨(max 1 w).toNat, ?_, rfl⟩
  have h : (1 : Int) ≤ max 1 w := le_max_left 1 w
  omega

/-- C5: in every `diffP` result the four status counters sum to the length of
the entries sequence. -/
theorem c5_counts_sum (H : Bytes → Nat) (old cur : List Bytes) (workers : Nat) :
    (diffP H old cur workers).Count Unchanged + (diffP H old cur workers).Count Updated +
      (diffP H old cur workers).Count Removed + (diffP H old cur workers).Count Added =
      (diffP H old cur workers).E.length := by
  unfold diffP Result.Count
  split
  · rfl
  · rw [diffCore_E, List.length_append]
    have h0 := diffCore_C_lt3 H old cur workers 0 (by omega)
    have h1 := diffCore_C_lt3 H old cur workers 1 (by omega)
    have h2 := diffCore_C_lt3 H old cur workers 2 (by omega)
    have h3 := diffCore_C_3 H old cur workers
    have hT := countP_three (mergedThird H old cur workers)
      fun e he => (mergedThird_mem H old cur workers e he).1
    simp only [Unchanged, Updated, Removed, Added]
    rw [h0, h1, h2, h3]
    omega

/-- C6: the result's entries are the phase-3 group (statuses Unchanged,
Updated, Removed) followed by the phase-4 group (status Added); the first
group is strictly ascending in the old index and the second in the cur index.
Worker `w` owns the ascending index chunk `[w*chunk, (w+1)*chunk)`, so
ascending input index refines ascending worker id with ascending index within
each worker. -/
theorem c6_entries_ordered (H : Bytes → Nat) (old cur : List Bytes) (workers : Nat) :
    ∃ front back,
      (diffP H old cur workers).E = front ++ back ∧
      (∀ e ∈ front, e.status < 3) ∧
      (∀ e ∈ back, e.status = Added) ∧
      (front.map (·.old)).Pairwise (· < ·) ∧
      (back.map (·.new)).Pairwise (· < ·) := by
  unfold diffP
  split
  · exact ⟨[], [], rfl, by simp, by simp, by simp, by simp⟩
  · refine ⟨mergedThird H old cur workers, mergedFourth H old cur workers,
      diffCore_E H old cur workers, ?_, ?_, ?_, ?_⟩
    · exact fun e he => (mergedThird_mem H old cur workers e he).1
    · exact fun e he => (mergedFourth_mem H old cur workers e he).1
    · rw [mergedThird_olds]
      exact List.pairwise_lt_range _
    · rw [mergedFourth_news]
      exact List.Pairwise.sublist (List.filter_sublist _) (List.pairwise_lt_range _)

/-- C7: `Equal` is reflexive and symmetric, and two byte strings with equal
identities receive equal identity hashes under any seed. -/
theorem c7_equal_props :
    (∀ a : Bytes, Equal a a = true) ∧
    (∀ a b : Bytes, Equal a b = Equal b a) ∧
    (∀ (H : Bytes → Nat) (a b : Bytes),
      Equal a b = true → (Hash H a).1 = (Hash H b).1) :=
  ⟨Equal_refl, Equal_symm, hash_consistent⟩

/-- C7 witness: hash consistency applied to the identity-equal pair
`libfoo.so.1` / `libfoo.so.2` under a concrete hash. -/
theorem c7_equal_props_witness :
    (Hash Hpoly (bytes "libfoo.so.1")).1 = (Hash Hpoly (bytes "libfoo.so.2")).1 :=
  c7_equal_props.2.2 Hpoly (bytes "libfoo.so.1") (bytes "libfoo.so.2") (by decide)

/-- C8: all four matchers return indices within `[0, len]` on every byte
string (they are total functions), and the pair-returning matchers satisfy
`s > 0 → e > s`. -/
theorem c8_matcher_bounds (bs : Bytes) :
    Soname bs ≤ bs.length ∧ Suffix bs ≤ bs.length ∧
    (Script bs).1 ≤ bs.length ∧ (Script bs).2 ≤ bs.length ∧
    (Embedded bs).1 ≤ bs.length ∧ (Embedded bs).2 ≤ bs.length ∧
    ((Script bs).1 = 0 ∨ (Script bs).1 < (Script bs).2) ∧
    ((Embedded bs).1 = 0 ∨ (Embedded bs).1 < (Embedded bs).2) := by
  have hsc := Script_spec bs
  have hem := Embedded_spec bs
  have hso := Soname_le bs
  have hsu := Suffix_le bs
  refine ⟨hso, hsu, ?_, ?_, ?_, ?_, ?_, ?_⟩ <;> omega

/-- C9: `Soname` equals the spec's description — the first index `i` found
scanning from `len-2` down to `3` with `bs[i]='.'`, `bs[i+1]` a digit,
`bs[i-1]='o'`, `bs[i-2]='s'`, `bs[i-3]='.'`, and `0` when none exists — and
the three quoted examples hold. -/
theorem c9_soname_spec :
    (∀ bs : Bytes, Soname bs = sonameSpec bs) ∧
    Soname (bytes "libfoo.so.1") = 9 ∧ Soname (bytes "libfoo.so") = 0 ∧
    Soname (bytes ".so.1") = 3 := by
  refine ⟨fun bs => sonameLoop_eq_findGreatest bs (bs.length - 2),
    by decide, by decide, by decide⟩

/-- C10: every entry's Status field is the plain ordinal (below 4, upper bits
zero); `Count s` equals the number of entries whose decoded status
(`Status & 0xFF`) is `s`, and `Filter s` yields exactly `Count s` entries. -/
theorem c10_count_filter (H : Bytes → Nat) (old cur : List Bytes) (workers : Nat) :
    (∀ e ∈ (diffP H old cur workers).E, e.status < 4) ∧
    (∀ s, s < 4 →
      (diffP H old cur workers).Count s =
        (diffP H old cur workers).E.countP (fun e => e.status &&& 255 == s) ∧
      ((diffP H old cur workers).Filter s).length =
        (diffP H old cur workers).Count s) := by
  have hF3 : ∀ e ∈ mergedFourth H old cur workers, e.status = 3 := by
    intro e he
    have := (mergedFourth_mem H old cur workers e he).1
    simpa [Added] using this
  constructor
  · intro e he
    unfold diffP at he
    split at he
    · simp at he
    · rw [diffCore_E] at he
      rcases List.mem_append.mp he with h | h
      · have := (mergedThird_mem H old cur workers e h).1
        omega
      · have := hF3 e h
        omega
  · intro s hs
    have hCount : (diffP H old cur workers).Count s =
        (diffP H old cur workers).E.countP (fun e => e.status &&& 255 == s) := by
      unfold diffP Result.Count
      split
      · rfl
      · rw [diffCore_E, List.countP_append]
        have hTc : (mergedThird H old cur workers).countP
              (fun e => e.status &&& 255 == s) =
            (mergedThird H old cur workers).countP (fun e => e.status == s) := by
          apply List.countP_congr
          intro e he
          have hlt := (mergedThird_mem H old cur workers e he).1
          rw [and255_of_lt _ (by omega)]
        have hFc : (mergedFourth H old cur workers).countP
              (fun e => e.status &&& 255 == s) =
            (mergedFourth H old cur workers).countP (fun e => e.status == s) := by
          apply List.countP_congr
          intro e he
          rw [and255_of_lt _ (by rw [hF3 e he]; omega)]
        rw [hTc, hFc]
        by_cases h3 : s < 3
        · rw [diffCore_C_lt3 _ _ _ _ s h3]
          have hz : (mergedFourth H old cur workers).countP (fun e => e.status == s) = 0 := by
            rw [List.countP_eq_zero]
            intro e he
            rw [hF3 e he]
            simp only [beq_iff_eq]
            omega
          omega
        · have hs3 : s = 3 := by omega
          subst hs3
          rw [diffCore_C_3]
          have hTz : (mergedThird H old cur workers).countP (fun e => e.status == 3) = 0 := by
            rw [List.countP_eq_zero]
            intro e he
            have := (mergedThird_mem H old cur workers e he).1
            simp only [beq_iff_eq]
            omega
          have hFl : (mergedFourth H old cur workers).countP (fun e => e.status == 3) =
              (mergedFourth H old cur workers).length := by
            rw [List.countP_eq_length]
            intro e he
            rw [hF3 e he]
            rfl
          omega
    refine ⟨hCount, ?_⟩
    unfold Result.Filter
    rw [← List.countP_eq_length_filter]
    exact hCount.symm

/-- C10 witness: the counter/iterator agreement applied at `s = 1` on a
concrete Updated-producing run. -/
theorem c10_count_filter_witness :
    (diffP Hpoly [bytes "lib.so.1"] [bytes "lib.so.2"] 1).Count 1 =
      (diffP Hpoly [bytes "lib.so.1"] [bytes "lib.so.2"] 1).E.countP
        (fun e => e.status &&& 255 == 1) ∧
    ((diffP Hpoly [bytes "lib.so.1"] [bytes "lib.so.2"] 1).Filter 1).length =
      (diffP Hpoly [bytes "lib.so.1"] [bytes "lib.so.2"] 1).Count 1 :=
  (c10_count_filter Hpoly [bytes "lib.so.1"] [bytes "lib.so.2"] 1).2 1 (by decide)

end Reconcile
